import Mathlib

/-!
Shallow embedding of the zip archive reader (`src/pkg/archive/zip/reader.go`).

The byte store is a `List Byte` (`Byte := Fin 256`, matching Go's `[]byte`);
the store's size is its length.  Fallible operations return `Except ZipError`.
Structure lengths and signatures come from `struct.go`, which is not part of
the source tree; they are modelled from the spec's binary-layout table.
-/

namespace Zip

abbrev Byte := Fin 256

/-- Modelled from the spec: the fixed sizes and magic signatures declared in
`struct.go` (absent from the source tree), taken from the spec's binary-layout
table: local file header 30 fixed bytes with signature PK\x03\x04, central
directory header 46 fixed bytes with signature PK\x01\x02, end-of-directory
trailer 22 fixed bytes with signature PK\x05\x06, data descriptor 12 bytes,
method codes 0 (store) and 8 (deflate). -/
def fileHeaderLen : Nat := 30

def directoryHeaderLen : Nat := 46

def directoryEndLen : Nat := 22

def dataDescriptorLen : Nat := 12

def fileHeaderSignature : Nat := 0x04034b50

def directoryHeaderSignature : Nat := 0x02014b50

def MethodStore : Nat := 0

def MethodDeflate : Nat := 8

/-- The error values of the reader: `ErrFormat`, `ErrAlgorithm`, `ErrChecksum`
from the source, plus the two `io` errors it observes (`io.EOF` and
`io.ErrUnexpectedEOF`). -/
inductive ZipError where
  | errFormat
  | errAlgorithm
  | errChecksum
  | errUnexpectedEOF
  | errEOF
deriving DecidableEq, Repr

/-- `toUint16` from the source: little-endian decode of the first two bytes. -/
def toUint16 (b : List Byte) : Nat :=
  (b.getD 0 0).val ||| ((b.getD 1 0).val <<< 8)

/-- `toUint32` from the source: little-endian decode of the first four bytes. -/
def toUint32 (b : List Byte) : Nat :=
  (b.getD 0 0).val ||| ((b.getD 1 0).val <<< 8) |||
    ((b.getD 2 0).val <<< 16) ||| ((b.getD 3 0).val <<< 24)

/-- `io.ReadFull` on a deterministic byte stream: reads exactly `n` bytes,
returning `io.EOF` when no byte is available and `io.ErrUnexpectedEOF` when
only part of the request is available. -/
def readFull (r : List Byte) (n : Nat) : Except ZipError (List Byte × List Byte) :=
  if n ≤ r.length then .ok (r.take n, r.drop n)
  else if r.length = 0 then .error .errEOF
  else .error .errUnexpectedEOF

/-- `File` from the source (header fields flattened in; `zipr` is the shared
byte store, passed separately to the functions that need it). -/
structure File where
  name : List Byte := []
  extra : List Byte := []
  comment : List Byte := []
  creatorVersion : Nat := 0
  readerVersion : Nat := 0
  flags : Nat := 0
  method : Nat := 0
  modifiedTime : Nat := 0
  modifiedDate : Nat := 0
  crc32 : Nat := 0
  compressedSize : Nat := 0
  uncompressedSize : Nat := 0
  externalAttrs : Nat := 0
  headerOffset : Nat := 0
  zipsize : Nat := 0
deriving DecidableEq, Repr

/-- `File.hasDataDescriptor`: flag bit 0x8. -/
def File.hasDataDescriptor (f : File) : Bool :=
  f.flags &&& 0x8 != 0

/-- `readDirectoryHeader`: decode one central-directory record from the front
of `r`, returning the populated file and the remaining stream. -/
def readDirectoryHeader (f : File) (r : List Byte) :
    Except ZipError (File × List Byte) :=
  match readFull r directoryHeaderLen with
  | .error e => .error e
  | .ok (b, r1) =>
    if toUint32 b ≠ directoryHeaderSignature then .error .errFormat
    else
      let filenameLen := toUint16 (b.drop 28)
      let extraLen := toUint16 (b.drop 30)
      let commentLen := toUint16 (b.drop 32)
      match readFull r1 (filenameLen + extraLen + commentLen) with
      | .error e => .error e
      | .ok (d, r2) =>
        .ok ({ f with
          creatorVersion := toUint16 (b.drop 4)
          readerVersion := toUint16 (b.drop 6)
          flags := toUint16 (b.drop 8)
          method := toUint16 (b.drop 10)
          modifiedTime := toUint16 (b.drop 12)
          modifiedDate := toUint16 (b.drop 14)
          crc32 := toUint32 (b.drop 16)
          compressedSize := toUint32 (b.drop 20)
          uncompressedSize := toUint32 (b.drop 24)
          externalAttrs := toUint32 (b.drop 38)
          headerOffset := toUint32 (b.drop 42)
          name := d.take filenameLen
          extra := (d.drop filenameLen).take extraLen
          comment := d.drop (filenameLen + extraLen) }, r2)

theorem readFull_ok {r : List Byte} {n : Nat} {b r' : List Byte}
    (h : readFull r n = .ok (b, r')) :
    b = r.take n ∧ r' = r.drop n ∧ n ≤ r.length := by
  unfold readFull at h
  by_cases h1 : n ≤ r.length
  · simp only [h1, if_true, Except.ok.injEq, Prod.mk.injEq] at h
    exact ⟨h.1.symm, h.2.symm, h1⟩
  · by_cases h2 : r.length = 0 <;> simp only [h1, h2, if_true, if_false] at h
    · split at h
      · next hn => exact absurd (by omega) h1
      · exact absurd h (by simp)
    · exact absurd h (by simp)

theorem readDirectoryHeader_length {f f' : File} {r r' : List Byte}
    (h : readDirectoryHeader f r = .ok (f', r')) : r'.length < r.length := by
  unfold readDirectoryHeader at h
  cases hrf : readFull r directoryHeaderLen with
  | error e => rw [hrf] at h; simp at h
  | ok v =>
    obtain ⟨b, r1⟩ := v
    rw [hrf] at h
    obtain ⟨-, hr1, hlen⟩ := readFull_ok hrf
    simp only at h
    by_cases hsig : toUint32 b ≠ directoryHeaderSignature
    · simp [hsig] at h
    · simp only [hsig, if_false] at h
      cases hrf2 : readFull r1
          (toUint16 (b.drop 28) + toUint16 (b.drop 30) + toUint16 (b.drop 32)) with
      | error e => rw [hrf2] at h; simp at h
      | ok v2 =>
        obtain ⟨d, r2⟩ := v2
        rw [hrf2] at h
        obtain ⟨-, hr2, -⟩ := readFull_ok hrf2
        simp only [Except.ok.injEq, Prod.mk.injEq] at h
        have hr' : r' = r2 := h.2.symm
        subst hr' hr2 hr1
        simp only [List.length_drop]
        have h46 : (0:Nat) < directoryHeaderLen := by decide
        unfold directoryHeaderLen at hlen h46 ⊢
        omega

/-- The central-directory scan loop inside `Reader.init`: keep decoding
records, accumulating them, until `readDirectoryHeader` fails; return the
records decoded (in order) and the error that stopped the loop. -/
def directoryLoop (zs : Nat) (r : List Byte) (acc : List File) :
    List File × ZipError :=
  match h : readDirectoryHeader { zipsize := zs } r with
  | .error e => (acc.reverse, e)
  | .ok (f, r') =>
    have : r'.length < r.length := readDirectoryHeader_length h
    directoryLoop zs r' (f :: acc)
termination_by r.length

/-- `directoryEnd` from the source. -/
structure directoryEnd where
  diskNbr : Nat
  dirDiskNbr : Nat
  dirRecordsThisDisk : Nat
  directoryRecords : Nat
  directorySize : Nat
  directoryOffset : Nat
  commentLen : Nat
  comment : List Byte
deriving DecidableEq, Repr

/-- The fixed-field parse at the end of `readDirectoryEnd`, applied to the
block beginning at the accepted signature position. -/
def parseEnd (b : List Byte) : directoryEnd :=
  { diskNbr := toUint16 (b.drop 4)
    dirDiskNbr := toUint16 (b.drop 6)
    dirRecordsThisDisk := toUint16 (b.drop 8)
    directoryRecords := toUint16 (b.drop 10)
    directorySize := toUint32 (b.drop 12)
    directoryOffset := toUint32 (b.drop 16)
    commentLen := toUint16 (b.drop 20)
    comment := (b.drop 22).take (toUint16 (b.drop 20)) }

/-- The four magic bytes 'P','K',0x05,0x06 at position `i` of block `b`. -/
def endSigAt (b : List Byte) (i : Nat) : Bool :=
  b.getD i 0 == (80 : Byte) && b.getD (i+1) 0 == (75 : Byte) &&
    b.getD (i+2) 0 == (5 : Byte) && b.getD (i+3) 0 == (6 : Byte)

/-- `n` in `findSignatureInBlock`: the comment length read at the fixed
offset from candidate position `i`. -/
def commentLenAt (b : List Byte) (i : Nat) : Nat :=
  (b.getD (i + directoryEndLen - 2) 0).val |||
    ((b.getD (i + directoryEndLen - 1) 0).val <<< 8)

/-- The acceptance test of `findSignatureInBlock` at position `i`: magic
bytes present and the comment length consistent with the block length. -/
def endCond (b : List Byte) (i : Nat) : Bool :=
  endSigAt b i && (commentLenAt b i + directoryEndLen + i == b.length)

/-- The backward scan of `findSignatureInBlock`, from position `i` down to 0. -/
def findSigFrom (b : List Byte) : Nat → Option Nat
  | 0 => if endCond b 0 then some 0 else none
  | i+1 => if endCond b (i+1) then some (i+1) else findSigFrom b i

/-- `findSignatureInBlock`: scan backward from `len(b) - directoryEndLen`;
`none` models the Go return value -1. -/
def findSignatureInBlock (b : List Byte) : Option Nat :=
  if directoryEndLen ≤ b.length then findSigFrom b (b.length - directoryEndLen)
  else none

/-- The window of the last `k` bytes of the store (clipped to the store),
as read by `readDirectoryEnd` before each scan. -/
def scanWindow (store : List Byte) (k : Nat) : List Byte :=
  store.drop (store.length - min k store.length)

/-- `readDirectoryEnd`: scan the last 1024 bytes, then the last 65*1024
bytes, for a consistent end-of-directory signature; parse the record at the
accepted position, or fail with the format error. -/
def readDirectoryEnd (store : List Byte) : Except ZipError directoryEnd :=
  match findSignatureInBlock (scanWindow store 1024) with
  | some p => .ok (parseEnd ((scanWindow store 1024).drop p))
  | none =>
    if min 1024 store.length = store.length then .error .errFormat
    else
      match findSignatureInBlock (scanWindow store (65 * 1024)) with
      | some p => .ok (parseEnd ((scanWindow store (65 * 1024)).drop p))
      | none => .error .errFormat

/-- `Reader` from the source (the store itself is passed separately). -/
structure Reader where
  files : List File
  comment : List Byte
deriving DecidableEq, Repr

/-- `Reader.init`: locate the trailer, then decode central-directory records
until a failure; accept when the decoded count reduced modulo 65536 matches
the trailer's declared count and the stopping error was `ErrFormat` or
`io.ErrUnexpectedEOF`, otherwise surface the stopping error. -/
def Reader.init (store : List Byte) : Except ZipError Reader :=
  match readDirectoryEnd store with
  | .error e => .error e
  | .ok d =>
    let p := directoryLoop store.length (store.drop d.directoryOffset) []
    if p.2 = .errFormat ∨ p.2 = .errUnexpectedEOF then
      if p.1.length % 65536 = d.directoryRecords then .ok ⟨p.1, d.comment⟩
      else .error p.2
    else .error p.2

/-- `File.findBodyOffset`: read the fixed local header at `headerOffset`,
check its signature, and return the offset of the body past the
variable-length name and extra fields. -/
def File.findBodyOffset (f : File) (store : List Byte) : Except ZipError Nat :=
  let r := store.drop f.headerOffset
  match readFull r fileHeaderLen with
  | .error e => .error e
  | .ok (b, _) =>
    if toUint32 (b.take 4) ≠ fileHeaderSignature then .error .errFormat
    else .ok (fileHeaderLen + toUint16 ((b.drop 26).take 2) +
      toUint16 ((b.drop 28).take 2))

/-- The compression method selected by `File.Open`'s dispatch. -/
inductive Compression where
  | store
  | deflate
deriving DecidableEq, Repr

/-- The stream returned by a successful `File.Open`: the bounded byte-range
view (`io.NewSectionReader(f.zipr, f.headerOffset+bodyOffset, size)`), the
selected transform, and the file whose checksum is to be verified. -/
structure ZipStream where
  comp : Compression
  body : List Byte
  file : File
deriving DecidableEq, Repr

/-- The size chosen by `File.Open` for the bounded view: the compressed
size, except that a zero size with the trailer-follows flag set extends the
view to the end of the store. -/
def openSize (f : File) (bodyOffset : Nat) : Nat :=
  if f.compressedSize = 0 ∧ f.hasDataDescriptor then
    f.zipsize - (f.headerOffset + bodyOffset)
  else f.compressedSize

/-- The bounded byte-range view constructed by `File.Open`
(`io.NewSectionReader(f.zipr, f.headerOffset+bodyOffset, size)`). -/
def openView (f : File) (store : List Byte) (bodyOffset : Nat) : List Byte :=
  (store.drop (f.headerOffset + bodyOffset)).take (openSize f bodyOffset)

/-- `File.Open`: resolve the body offset, size the bounded view (extending
to the end of the store when the size is zero and a data descriptor is
expected), then dispatch on the method code. -/
def File.Open (f : File) (store : List Byte) : Except ZipError ZipStream :=
  match f.findBodyOffset store with
  | .error e => .error e
  | .ok bodyOffset =>
    if f.method = MethodStore then .ok ⟨.store, openView f store bodyOffset, f⟩
    else if f.method = MethodDeflate then
      .ok ⟨.deflate, openView f store bodyOffset, f⟩
    else .error .errAlgorithm

/-- `readDataDescriptor`: read the 12-byte deferred trailer and overwrite
the file's CRC-32 and sizes with its values. -/
def readDataDescriptor (r : List Byte) (f : File) :
    Except ZipError (File × List Byte) :=
  match readFull r dataDescriptorLen with
  | .error e => .error e
  | .ok (b, rest) =>
    .ok ({ f with
      crc32 := toUint32 (b.take 4)
      compressedSize := toUint32 ((b.drop 4).take 4)
      uncompressedSize := toUint32 ((b.drop 8).take 4) }, rest)

/-- The state of a `checksumReader`: the undelivered decompressed bytes, the
unconsumed remainder of the bounded view (the source for the data
descriptor), the file, and the bytes hashed so far (the CRC-32 accumulator
is an external collaborator, modelled as a function of the bytes written). -/
structure CSState where
  rem : List Byte
  ziprRem : List Byte
  f : File
  hashed : List Byte
deriving DecidableEq, Repr

/-- One call of `checksumReader.Read` with a buffer of `k` bytes: pass
decompressed bytes through while any remain; on observing end-of-input,
read the data descriptor when the flag is set, then compare the accumulated
CRC-32 against the authoritative value. -/
def csRead (crc : List Byte → Nat) (k : Nat) (s : CSState) :
    (List Byte × Option ZipError) × CSState :=
  if s.rem.isEmpty then
    if s.f.hasDataDescriptor then
      match readDataDescriptor s.ziprRem s.f with
      | .error e => (([], some e), { s with ziprRem := s.ziprRem.drop dataDescriptorLen })
      | .ok (f', rest) =>
        if crc s.hashed ≠ f'.crc32 then
          (([], some .errChecksum), { s with f := f', ziprRem := rest })
        else (([], some .errEOF), { s with f := f', ziprRem := rest })
    else
      if crc s.hashed ≠ s.f.crc32 then (([], some .errChecksum), s)
      else (([], some .errEOF), s)
  else
    ((s.rem.take k, none),
      { s with rem := s.rem.drop k, hashed := s.hashed ++ s.rem.take k })

theorem csRead_rem_lt (crc : List Byte → Nat) {s : CSState}
    (h : ¬s.rem.isEmpty) : ((csRead crc 4096 s).2).rem.length < s.rem.length := by
  simp only [csRead, h, if_false, Bool.false_eq_true]
  have h0 : s.rem ≠ [] := by
    cases hr : s.rem with
    | nil => rw [hr] at h; simp at h
    | cons a l => simp
  have : 0 < s.rem.length := List.length_pos.mpr h0
  simp only [List.length_drop]
  omega

/-- Repeatedly call `checksumReader.Read` with a 4096-byte buffer until an
error is returned: yields all bytes delivered, the terminal error
(`errEOF` standing for the clean end-of-stream signal), and the final state. -/
def drainCS (crc : List Byte → Nat) (s : CSState) :
    List Byte × ZipError × CSState :=
  if h : s.rem.isEmpty then
    (((csRead crc 4096 s).1.1), ((csRead crc 4096 s).1.2).getD .errEOF,
      (csRead crc 4096 s).2)
  else
    have := csRead_rem_lt crc h
    let r1 := csRead crc 4096 s
    let r2 := drainCS crc r1.2
    (r1.1.1 ++ r2.1, r2.2.1, r2.2.2)
termination_by s.rem.length

/-- The initial `checksumReader` state built by `File.Open`: for the stored
method the inner stream is the bounded view itself (so the shared reader is
exhausted exactly when the inner stream ends); for deflate the inner stream
is the inflate transform's output and the unconsumed input remains available
for the data descriptor.  The inflate transform is an external collaborator,
modelled as a function from the view to (output, unconsumed input). -/
def initialCS (zs : ZipStream) (inflate : List Byte → List Byte × List Byte) :
    CSState :=
  match zs.comp with
  | .store => ⟨zs.body, [], zs.file, []⟩
  | .deflate => ⟨(inflate zs.body).1, (inflate zs.body).2, zs.file, []⟩

/-! List indexing helper lemmas. -/

theorem getD_drop {α : Type} (l : List α) (k i : Nat) (d : α) :
    (l.drop k).getD i d = l.getD (k + i) d := by
  induction l generalizing k with
  | nil => simp
  | cons a t ih =>
    cases k with
    | zero => simp
    | succ k =>
      rw [List.drop_succ_cons, ih k]
      have : k + 1 + i = (k + i) + 1 := by omega
      rw [this, List.getD_cons_succ]

theorem getD_take {α : Type} (l : List α) (n i : Nat) (d : α) (h : i < n) :
    (l.take n).getD i d = l.getD i d := by
  induction l generalizing n i with
  | nil => simp
  | cons a t ih =>
    cases n with
    | zero => omega
    | succ n =>
      cases i with
      | zero => simp
      | succ i => simpa using ih n i (by omega)

theorem getD_append_left {α : Type} (l₁ l₂ : List α) (i : Nat) (d : α)
    (h : i < l₁.length) : (l₁ ++ l₂).getD i d = l₁.getD i d := by
  induction l₁ generalizing i with
  | nil => simp at h
  | cons a t ih =>
    cases i with
    | zero => simp
    | succ i => simpa using ih i (by simpa using h)

theorem getD_append_right {α : Type} (l₁ l₂ : List α) (i : Nat) (d : α) :
    (l₁ ++ l₂).getD (l₁.length + i) d = l₂.getD i d := by
  induction l₁ with
  | nil => simp
  | cons a t ih =>
    have : (a :: t).length + i = (t.length + i) + 1 := by simp; omega
    rw [this, List.cons_append, List.getD_cons_succ, ih]

/-! Characterization of the backward trailer scan. -/

theorem endCond_iff {b : List Byte} {i : Nat} :
    endCond b i = true ↔
      (endSigAt b i = true ∧ commentLenAt b i + directoryEndLen + i = b.length) := by
  unfold endCond
  rw [Bool.and_eq_true, beq_iff_eq]

theorem endCond_le {b : List Byte} {i : Nat} (h : endCond b i = true) :
    i + directoryEndLen ≤ b.length := by
  have := (endCond_iff.mp h).2
  omega

theorem findSigFrom_none (b : List Byte) (i : Nat) :
    findSigFrom b i = none ↔ ∀ j, j ≤ i → endCond b j = false := by
  induction i with
  | zero =>
    unfold findSigFrom
    by_cases hc : endCond b 0 = true
    · simp only [hc, if_true]
      constructor
      · intro h; exact absurd h (by simp)
      · intro h; exact absurd (h 0 (Nat.le_refl 0)) (by simp [hc])
    · have hc' : endCond b 0 = false := by revert hc; cases endCond b 0 <;> simp
      simp only [hc', Bool.false_eq_true, if_false]
      constructor
      · intro _ j hj
        have : j = 0 := Nat.le_zero.mp hj
        rw [this]; exact hc'
      · intro _; trivial
  | succ i ih =>
    unfold findSigFrom
    by_cases hc : endCond b (i+1) = true
    · simp only [hc, if_true]
      constructor
      · intro h; exact absurd h (by simp)
      · intro h; exact absurd (h (i+1) (Nat.le_refl _)) (by simp [hc])
    · have hc' : endCond b (i+1) = false := by revert hc; cases endCond b (i+1) <;> simp
      simp only [hc', Bool.false_eq_true, if_false, ih]
      constructor
      · intro h j hj
        rcases Nat.lt_or_ge j (i+1) with hlt | hge
        · exact h j (by omega)
        · have : j = i + 1 := by omega
          rw [this]; exact hc'
      · intro h j hj
        exact h j (by omega)

theorem findSigFrom_some (b : List Byte) (i : Nat) (p : Nat) :
    findSigFrom b i = some p ↔
      (p ≤ i ∧ endCond b p = true ∧
        ∀ j, p < j → j ≤ i → endCond b j = false) := by
  induction i with
  | zero =>
    unfold findSigFrom
    by_cases hc : endCond b 0 = true
    · simp only [hc, if_true, Option.some.injEq]
      constructor
      · intro h
        refine ⟨by omega, by rw [← h]; exact hc, ?_⟩
        intro j h1 h2; omega
      · intro ⟨h1, _, _⟩
        omega
    · have hc' : endCond b 0 = false := by revert hc; cases endCond b 0 <;> simp
      simp only [hc', Bool.false_eq_true, if_false]
      constructor
      · intro h; exact absurd h (by simp)
      · intro ⟨h1, h2, _⟩
        have : p = 0 := Nat.le_zero.mp h1
        rw [this] at h2
        exact absurd h2 (by simp [hc'])
  | succ i ih =>
    unfold findSigFrom
    by_cases hc : endCond b (i+1) = true
    · simp only [hc, if_true, Option.some.injEq]
      constructor
      · intro h
        refine ⟨by omega, by rw [← h]; exact hc, ?_⟩
        intro j h1 h2
        have : j = i + 1 := by omega
        rw [this] at h1
        rw [← h] at h1
        omega
      · intro ⟨h1, h2, h3⟩
        rcases Nat.lt_or_ge p (i+1) with hlt | hge
        · exact absurd (h3 (i+1) (by omega) (by omega)) (by simp [hc])
        · omega
    · have hc' : endCond b (i+1) = false := by revert hc; cases endCond b (i+1) <;> simp
      simp only [hc', Bool.false_eq_true, if_false, ih]
      constructor
      · intro ⟨h1, h2, h3⟩
        refine ⟨by omega, h2, ?_⟩
        intro j hj1 hj2
        rcases Nat.lt_or_ge j (i+1) with hlt | hge
        · exact h3 j hj1 (by omega)
        · have : j = i + 1 := by omega
          rw [this]; exact hc'
      · intro ⟨h1, h2, h3⟩
        have hne : p ≠ i + 1 := by
          intro h
          rw [h] at h2
          exact absurd h2 (by simp [hc'])
        refine ⟨by omega, h2, ?_⟩
        intro j hj1 hj2
        exact h3 j hj1 (by omega)

theorem findSignatureInBlock_some (b : List Byte) (p : Nat) :
    findSignatureInBlock b = some p ↔
      (endCond b p = true ∧ ∀ q, endCond b q = true → q ≤ p) := by
  unfold findSignatureInBlock
  by_cases h22 : directoryEndLen ≤ b.length
  · simp only [h22, if_true, findSigFrom_some]
    constructor
    · intro ⟨h1, h2, h3⟩
      refine ⟨h2, ?_⟩
      intro q hq
      by_contra hgt
      have h4 : p < q := by omega
      have h5 : q ≤ b.length - directoryEndLen := by
        have := endCond_le hq; omega
      exact absurd hq (by simp [h3 q h4 h5])
    · intro ⟨h1, h2⟩
      have hp : p + directoryEndLen ≤ b.length := endCond_le h1
      refine ⟨by omega, h1, ?_⟩
      intro j hj1 hj2
      by_contra hct
      have : endCond b j = true := by revert hct; cases endCond b j <;> simp
      have := h2 j this
      omega
  · simp only [h22, if_false]
    constructor
    · intro h; exact absurd h (by simp)
    · intro ⟨h1, _⟩
      have := endCond_le h1
      omega

theorem findSignatureInBlock_none (b : List Byte) :
    findSignatureInBlock b = none ↔ ∀ q, endCond b q = false := by
  unfold findSignatureInBlock
  by_cases h22 : directoryEndLen ≤ b.length
  · simp only [h22, if_true, findSigFrom_none]
    constructor
    · intro h q
      rcases Nat.lt_or_ge (b.length - directoryEndLen) q with hgt | hle
      · by_contra hct
        have hq : endCond b q = true := by revert hct; cases endCond b q <;> simp
        have := endCond_le hq
        omega
      · exact h q hle
    · intro h j _; exact h j
  · simp only [h22, if_false]
    constructor
    · intro _ q
      by_contra hct
      have hq : endCond b q = true := by revert hct; cases endCond b q <;> simp
      have := endCond_le hq
      omega
    · intro _; trivial

theorem parseEnd_commentLen (b : List Byte) (p : Nat) :
    (parseEnd (b.drop p)).commentLen = commentLenAt b p := by
  unfold parseEnd commentLenAt toUint16
  simp only [getD_drop]
  congr 2

/-- Claim C3: within a scanned block `b`, a position `p` is accepted as the
trailer if and only if the four signature bytes 'P','K',0x05,0x06 appear at
`p` and the comment length `n` read at the fixed offset from `p` satisfies
`n + directoryEndLen + p = b.length`; when several positions satisfy this,
the backward scan returns the largest such `p`. -/
theorem C3_trailer_candidate_acceptance (b : List Byte) (p : Nat) :
    findSignatureInBlock b = some p ↔
      (endSigAt b p = true ∧
        commentLenAt b p + directoryEndLen + p = b.length ∧
        ∀ q, endSigAt b q = true →
          commentLenAt b q + directoryEndLen + q = b.length → q ≤ p) := by
  rw [findSignatureInBlock_some]
  constructor
  · intro ⟨h1, h2⟩
    obtain ⟨hs, hl⟩ := endCond_iff.mp h1
    exact ⟨hs, hl, fun q hq1 hq2 => h2 q (endCond_iff.mpr ⟨hq1, hq2⟩)⟩
  · intro ⟨hs, hl, hmax⟩
    refine ⟨endCond_iff.mpr ⟨hs, hl⟩, fun q hq => ?_⟩
    obtain ⟨hq1, hq2⟩ := endCond_iff.mp hq
    exact hmax q hq1 hq2

/-- A block containing two consistent trailer candidates: one at position 3
(whose 22-byte comment is itself a consistent trailer) and one at position
25; the scan must return the later one. -/
def c3block : List Byte :=
  [0, 0, 0] ++
  ([80, 75, 5, 6] ++ [0, 0, 0, 0, 0, 0, 0, 0, 0, 0, 0, 0, 0, 0, 0, 0] ++ [22, 0]) ++
  ([80, 75, 5, 6] ++ [0, 0, 0, 0, 0, 0, 0, 0, 0, 0, 0, 0, 0, 0, 0, 0] ++ [0, 0])

theorem C3_witness : findSignatureInBlock c3block = some 25 :=
  (C3_trailer_candidate_acceptance c3block 25).mpr
    ⟨by decide, by decide, fun q _ h2 => by
      have hlen : c3block.length = 47 := by decide
      rw [hlen] at h2
      unfold directoryEndLen at h2
      omega⟩

/-- Claim C10: whenever the backward scan accepts a position `p` in block
`b`, the acceptance condition guarantees the fixed-field decoding and the
comment slice of `readDirectoryEnd` stay within the block: the comment
length read at `p` fits exactly (`p + directoryEndLen + n = b.length`), and
the extracted comment has the full declared length (nothing is truncated by
the end of the block). -/
theorem C10_trailer_parse_safety (b : List Byte) (p : Nat)
    (h : findSignatureInBlock b = some p) :
    p + directoryEndLen + (parseEnd (b.drop p)).commentLen = b.length ∧
    (parseEnd (b.drop p)).comment.length = (parseEnd (b.drop p)).commentLen := by
  obtain ⟨hc, -⟩ := (findSignatureInBlock_some b p).mp h
  obtain ⟨-, hl⟩ := endCond_iff.mp hc
  have hcl : (parseEnd (b.drop p)).commentLen = commentLenAt b p :=
    parseEnd_commentLen b p
  constructor
  · rw [hcl]; omega
  · have h20 : toUint16 ((b.drop p).drop 20) = commentLenAt b p := by
      have := parseEnd_commentLen b p
      unfold parseEnd at this
      exact this
    unfold parseEnd
    simp only [List.length_take, List.length_drop, h20]
    unfold directoryEndLen at hl
    omega

/-- A block with a single consistent trailer at position 3. -/
def c10block : List Byte :=
  [0, 0, 0] ++ [80, 75, 5, 6] ++ [0, 0, 0, 0, 0, 0, 0, 0, 0, 0, 0, 0, 0, 0, 0, 0] ++ [0, 0]

theorem C10_witness :
    3 + directoryEndLen + (parseEnd (c10block.drop 3)).commentLen = c10block.length ∧
    (parseEnd (c10block.drop 3)).comment.length = (parseEnd (c10block.drop 3)).commentLen :=
  C10_trailer_parse_safety c10block 3 (by decide)

/-! Decode helpers: the little-endian decoders only read a fixed prefix. -/

theorem toUint16_take {l : List Byte} {n : Nat} (h : 2 ≤ n) :
    toUint16 (l.take n) = toUint16 l := by
  unfold toUint16
  rw [getD_take _ _ _ _ (by omega), getD_take _ _ _ _ (by omega)]

theorem toUint32_take {l : List Byte} {n : Nat} (h : 4 ≤ n) :
    toUint32 (l.take n) = toUint32 l := by
  unfold toUint32
  rw [getD_take _ _ _ _ (by omega), getD_take _ _ _ _ (by omega),
    getD_take _ _ _ _ (by omega), getD_take _ _ _ _ (by omega)]

/-- Claim C9: if the four bytes at the entry's recorded `headerOffset` match
the local-file-header signature, the resolver returns body offset
`fileHeaderLen + nameLength + extraLength` with the two lengths read
little-endian from the local header (its size and CRC fields are not
consulted), and it fails with the format error when the signature does not
match.  The fixed local header (30 bytes) is assumed to lie within the
store. -/
theorem C9_local_header_resolver (f : File) (store : List Byte)
    (h30 : f.headerOffset + fileHeaderLen ≤ store.length) :
    (toUint32 (store.drop f.headerOffset) = fileHeaderSignature →
      f.findBodyOffset store = .ok (fileHeaderLen +
        toUint16 (store.drop (f.headerOffset + 26)) +
        toUint16 (store.drop (f.headerOffset + 28)))) ∧
    (toUint32 (store.drop f.headerOffset) ≠ fileHeaderSignature →
      f.findBodyOffset store = .error .errFormat) := by
  have hlen : fileHeaderLen ≤ (store.drop f.headerOffset).length := by
    simp only [List.length_drop]
    unfold fileHeaderLen at h30 ⊢
    omega
  have hrf : readFull (store.drop f.headerOffset) fileHeaderLen =
      .ok ((store.drop f.headerOffset).take fileHeaderLen,
        (store.drop f.headerOffset).drop fileHeaderLen) := by
    unfold readFull
    rw [if_pos hlen]
  have hsig4 : toUint32 (((store.drop f.headerOffset).take fileHeaderLen).take 4) =
      toUint32 (store.drop f.headerOffset) := by
    rw [toUint32_take (by omega), toUint32_take (by unfold fileHeaderLen; omega)]
  have hd26 : ((store.drop f.headerOffset).take fileHeaderLen).drop 26 =
      (store.drop (f.headerOffset + 26)).take (fileHeaderLen - 26) := by
    rw [List.drop_take, List.drop_drop]
  have hd28 : ((store.drop f.headerOffset).take fileHeaderLen).drop 28 =
      (store.drop (f.headerOffset + 28)).take (fileHeaderLen - 28) := by
    rw [List.drop_take, List.drop_drop]
  have h26 : toUint16 ((((store.drop f.headerOffset).take fileHeaderLen).drop 26).take 2) =
      toUint16 (store.drop (f.headerOffset + 26)) := by
    rw [hd26, List.take_take]
    rw [show (2 ⊓ (fileHeaderLen - 26)) = 2 by unfold fileHeaderLen; norm_num]
    rw [toUint16_take (by omega)]
  have h28 : toUint16 ((((store.drop f.headerOffset).take fileHeaderLen).drop 28).take 2) =
      toUint16 (store.drop (f.headerOffset + 28)) := by
    rw [hd28, List.take_take]
    rw [show (2 ⊓ (fileHeaderLen - 28)) = 2 by unfold fileHeaderLen; norm_num]
    rw [toUint16_take (by omega)]
  constructor
  · intro hsig
    unfold File.findBodyOffset
    simp only [hrf, hsig4, hsig, ne_eq, not_true_eq_false, if_false, h26, h28]
  · intro hsig
    unfold File.findBodyOffset
    simp only [hrf, hsig4]
    rw [if_pos hsig]

/-- A store consisting of one local file header (name length 1, extra
length 0) followed by the single name byte. -/
def c9store : List Byte :=
  [80, 75, 3, 4] ++
  [0, 0, 0, 0, 0, 0, 0, 0, 0, 0, 0, 0, 0, 0, 0, 0, 0, 0, 0, 0, 0, 0] ++
  [1, 0] ++ [0, 0] ++ [65]

def c9file : File := { headerOffset := 0, zipsize := 31 }

theorem C9_witness : c9file.findBodyOffset c9store = .ok 31 := by
  have h := (C9_local_header_resolver c9file c9store (by decide)).1 (by decide)
  rw [show (fileHeaderLen + toUint16 (c9store.drop (c9file.headerOffset + 26)) +
    toUint16 (c9store.drop (c9file.headerOffset + 28))) = 31 from by decide] at h
  exact h

/-- Claim C7: `File.Open` dispatches on the method code once the local
header has been resolved: method 0 (store) yields the bounded view itself
as the stream, method 8 (deflate) yields the bounded view tagged for the
streaming inflate transform, and any other method code yields
`ErrAlgorithm` with no stream. -/
theorem C7_method_dispatch (f : File) (store : List Byte) (bo : Nat)
    (hbo : f.findBodyOffset store = .ok bo) :
    (f.method = MethodStore →
      f.Open store = .ok ⟨.store, openView f store bo, f⟩) ∧
    (f.method = MethodDeflate →
      f.Open store = .ok ⟨.deflate, openView f store bo, f⟩) ∧
    (f.method ≠ MethodStore → f.method ≠ MethodDeflate →
      f.Open store = .error .errAlgorithm) := by
  unfold File.Open
  simp only [hbo]
  refine ⟨fun h1 => ?_, fun h2 => ?_, fun h1 h2 => ?_⟩
  · rw [if_pos h1]
  · rw [if_neg (by rw [h2]; unfold MethodStore MethodDeflate; omega), if_pos h2]
  · rw [if_neg h1, if_neg h2]

/-- A store with one stored entry: local header, then a 3-byte body. -/
def c7store : List Byte :=
  [80, 75, 3, 4] ++
  [0, 0, 0, 0, 0, 0, 0, 0, 0, 0, 0, 0, 0, 0, 0, 0, 0, 0, 0, 0, 0, 0] ++
  [0, 0] ++ [0, 0] ++ [1, 2, 3]

def c7file : File := { method := 0, compressedSize := 3, headerOffset := 0, zipsize := 33 }

def c7fileBad : File := { c7file with method := 99 }

theorem C7_witness :
    c7file.Open c7store = .ok ⟨.store, openView c7file c7store 30, c7file⟩ ∧
    c7fileBad.Open c7store = .error .errAlgorithm := by
  constructor
  · exact (C7_method_dispatch c7file c7store 30 (by rfl)).1 rfl
  · exact (C7_method_dispatch c7fileBad c7store 30 (by rfl)).2.2
      (by decide) (by decide)

/-- Claim C8: the bounded view built by `File.Open` has length equal to the
entry's compressed size when the trailer-follows flag is clear or the
recorded compressed size is nonzero (given the body lies within the store);
when the flag is set and the recorded size is zero, the view spans from the
body start to the end of the store. -/
theorem C8_body_length (f : File) (store : List Byte) (bo : Nat)
    (_hbo : f.findBodyOffset store = .ok bo) (hz : f.zipsize = store.length) :
    (¬(f.compressedSize = 0 ∧ f.hasDataDescriptor = true) →
      f.headerOffset + bo + f.compressedSize ≤ store.length →
      (openView f store bo).length = f.compressedSize) ∧
    ((f.compressedSize = 0 ∧ f.hasDataDescriptor = true) →
      openView f store bo = store.drop (f.headerOffset + bo)) := by
  constructor
  · intro hnot havail
    unfold openView openSize
    rw [if_neg (by simpa using hnot)]
    simp only [List.length_take, List.length_drop]
    omega
  · intro hyes
    unfold openView openSize
    rw [if_pos (by simpa using hyes), hz]
    apply List.take_of_length_le
    simp only [List.length_drop]
    omega

def c8file : File := { flags := 8, compressedSize := 0, headerOffset := 0, zipsize := 33 }

theorem C8_witness :
    (openView c7file c7store 30).length = c7file.compressedSize ∧
    openView c8file c7store 30 = c7store.drop 30 := by
  constructor
  · exact (C8_body_length c7file c7store 30 (by rfl) (by decide)).1
      (by decide) (by decide)
  · exact (C8_body_length c8file c7store 30 (by rfl) (by decide)).2 (by decide)

/-! The checksum-reader drain characterization. -/

/-- The state after all decompressed bytes have been delivered and hashed. -/
def flushCS (s : CSState) : CSState :=
  { s with rem := [], hashed := s.hashed ++ s.rem }

theorem csRead_data (crc : List Byte → Nat) (k : Nat) (s : CSState)
    (h : s.rem ≠ []) :
    csRead crc k s = ((s.rem.take k, none),
      { s with rem := s.rem.drop k, hashed := s.hashed ++ s.rem.take k }) := by
  unfold csRead
  rw [if_neg (by simpa using h)]

theorem drainCS_eq (crc : List Byte → Nat) (s : CSState) :
    drainCS crc s = (s.rem,
      ((csRead crc 4096 (flushCS s)).1.2).getD .errEOF,
      (csRead crc 4096 (flushCS s)).2) := by
  generalize hn : s.rem.length = n
  induction n using Nat.strong_induction_on generalizing s with
  | _ n ih =>
    by_cases h : s.rem.isEmpty
    · have hnil : s.rem = [] := by simpa using h
      have hfl : flushCS s = s := by
        cases s
        simp only [flushCS] at *
        simp [hnil]
      unfold drainCS
      rw [dif_pos h, hfl, hnil]
      have : (csRead crc 4096 s).1.1 = [] := by
        unfold csRead
        rw [if_pos h]
        repeat' split
        all_goals rfl
      rw [this]
    · have hne : s.rem ≠ [] := by simpa using h
      unfold drainCS
      rw [dif_neg h]
      simp only [csRead_data crc 4096 s hne]
      have hlt : (s.rem.drop 4096).length < n := by
        rw [← hn]
        simp only [List.length_drop]
        have : 0 < s.rem.length := List.length_pos.mpr hne
        omega
      rw [ih _ hlt _ rfl]
      have hfl : flushCS { s with rem := s.rem.drop 4096, hashed := s.hashed ++ s.rem.take 4096 } = flushCS s := by
        unfold flushCS
        simp [List.append_assoc, List.take_append_drop]
      simp only [hfl]
      rw [List.take_append_drop]

theorem csRead_flushed_flag (crc : List Byte → Nat) (k : Nat) (s : CSState)
    (hrem : s.rem = []) (hdd : s.f.hasDataDescriptor = true)
    {f' : File} {rest : List Byte}
    (hrd : readDataDescriptor s.ziprRem s.f = .ok (f', rest)) :
    csRead crc k s = (([],
      some (if crc s.hashed = f'.crc32 then ZipError.errEOF else .errChecksum)),
      { s with f := f', ziprRem := rest }) := by
  unfold csRead
  rw [if_pos (by simpa using hrem), hdd]
  simp only [if_true, hrd]
  by_cases hc : crc s.hashed = f'.crc32
  · rw [if_neg (by simpa using hc), if_pos hc]
  · rw [if_pos (by simpa using hc), if_neg hc]

theorem csRead_flushed_noflag (crc : List Byte → Nat) (k : Nat) (s : CSState)
    (hrem : s.rem = []) (hdd : s.f.hasDataDescriptor = false) :
    csRead crc k s = (([],
      some (if crc s.hashed = s.f.crc32 then ZipError.errEOF else .errChecksum)), s) := by
  unfold csRead
  rw [if_pos (by simpa using hrem), hdd]
  simp only [Bool.false_eq_true, if_false]
  by_cases hc : crc s.hashed = s.f.crc32
  · rw [if_neg (by simpa using hc), if_pos hc]
  · rw [if_pos (by simpa using hc), if_neg hc]

/-- Claim C5: when the checksum-verifying wrapper observes end-of-input from
the inner stream (`rem = []`), an entry with the trailer-follows flag reads
a data descriptor from the point the inner stream stopped consuming and
verifies against the descriptor's CRC-32 (the file is updated with the
descriptor's values); an entry with the flag clear verifies against the
central-directory CRC-32. -/
theorem C5_deferred_trailer (crc : List Byte → Nat) (k : Nat) (s : CSState)
    (hrem : s.rem = []) :
    (∀ (f' : File) (rest : List Byte), s.f.hasDataDescriptor = true →
      readDataDescriptor s.ziprRem s.f = .ok (f', rest) →
      csRead crc k s = (([],
        some (if crc s.hashed = f'.crc32 then ZipError.errEOF else .errChecksum)),
        { s with f := f', ziprRem := rest })) ∧
    (s.f.hasDataDescriptor = false →
      csRead crc k s = (([],
        some (if crc s.hashed = s.f.crc32 then ZipError.errEOF else .errChecksum)),
        s)) :=
  ⟨fun _ _ hdd hrd => csRead_flushed_flag crc k s hrem hdd hrd,
   fun hdd => csRead_flushed_noflag crc k s hrem hdd⟩

/-- A sample black-box CRC accumulator used by concrete instances. -/
def lenCrc : List Byte → Nat := fun l => l.length

def c5desc : List Byte := [1, 0, 0, 0, 0, 0, 0, 0, 0, 0, 0, 0]

def c5file : File := { flags := 8 }

def c5state : CSState := ⟨[], c5desc, c5file, [9]⟩

def c5fileAfter : File := { flags := 8, crc32 := 1, compressedSize := 0, uncompressedSize := 0 }

theorem C5_witness :
    csRead lenCrc 1 c5state = (([], some ZipError.errEOF),
      { c5state with f := c5fileAfter, ziprRem := [] }) := by
  have h := (C5_deferred_trailer lenCrc 1 c5state rfl).1 c5fileAfter [] (by decide) (by rfl)
  rw [h]
  rw [show (if lenCrc c5state.hashed = c5fileAfter.crc32
    then ZipError.errEOF else ZipError.errChecksum) = ZipError.errEOF from by decide]

/-- Claim C6: the checksum failure is lazy.  A read while decompressed bytes
remain never reports a checksum error (it delivers bytes with no error);
when the stream is drained, all bytes are delivered regardless of the
checksum, and the terminal signal is the clean end-of-stream exactly when
the CRC-32 accumulated over every delivered byte equals the authoritative
value (the central-directory CRC-32, or the data descriptor's value for a
flagged entry whose descriptor read succeeds), and `ErrChecksum` otherwise. -/
theorem C6_lazy_checksum (crc : List Byte → Nat) :
    (∀ (k : Nat) (s : CSState), s.rem ≠ [] →
      (csRead crc k s).1 = (s.rem.take k, none)) ∧
    (∀ s : CSState, s.f.hasDataDescriptor = false →
      (drainCS crc s).1 = s.rem ∧
      (drainCS crc s).2.1 = (if crc (s.hashed ++ s.rem) = s.f.crc32
        then ZipError.errEOF else .errChecksum)) ∧
    (∀ (s : CSState) (f' : File) (rest : List Byte),
      s.f.hasDataDescriptor = true →
      readDataDescriptor s.ziprRem s.f = .ok (f', rest) →
      (drainCS crc s).1 = s.rem ∧
      (drainCS crc s).2.1 = (if crc (s.hashed ++ s.rem) = f'.crc32
        then ZipError.errEOF else .errChecksum)) := by
  refine ⟨fun k s h => by rw [csRead_data crc k s h], fun s hdd => ?_, fun s f' rest hdd hrd => ?_⟩
  · rw [drainCS_eq]
    rw [csRead_flushed_noflag crc 4096 (flushCS s) rfl hdd]
    exact ⟨rfl, rfl⟩
  · rw [drainCS_eq]
    rw [csRead_flushed_flag crc 4096 (flushCS s) rfl hdd hrd]
    exact ⟨rfl, rfl⟩

/-- The entry-identity fields: everything except the CRC-32 and the two
sizes, which are the only fields the data-descriptor path can overwrite. -/
def sameEntryMeta (a b : File) : Prop :=
  a.name = b.name ∧ a.extra = b.extra ∧ a.comment = b.comment ∧
  a.creatorVersion = b.creatorVersion ∧ a.readerVersion = b.readerVersion ∧
  a.flags = b.flags ∧ a.method = b.method ∧ a.modifiedTime = b.modifiedTime ∧
  a.modifiedDate = b.modifiedDate ∧ a.externalAttrs = b.externalAttrs ∧
  a.headerOffset = b.headerOffset ∧ a.zipsize = b.zipsize

theorem sameEntryMeta_refl (a : File) : sameEntryMeta a a := by
  unfold sameEntryMeta
  repeat' constructor

theorem readDataDescriptor_meta {r : List Byte} {f f' : File} {rest : List Byte}
    (h : readDataDescriptor r f = .ok (f', rest)) : sameEntryMeta f' f := by
  unfold readDataDescriptor at h
  cases hrf : readFull r dataDescriptorLen with
  | error e => rw [hrf] at h; simp at h
  | ok v =>
    obtain ⟨b, rest2⟩ := v
    rw [hrf] at h
    simp only [Except.ok.injEq, Prod.mk.injEq] at h
    rw [← h.1]
    unfold sameEntryMeta
    repeat' constructor

theorem csRead_flushed_flag_err (crc : List Byte → Nat) (k : Nat) (s : CSState)
    (hrem : s.rem = []) (hdd : s.f.hasDataDescriptor = true)
    {e : ZipError} (hrd : readDataDescriptor s.ziprRem s.f = .error e) :
    csRead crc k s = (([], some e),
      { s with ziprRem := s.ziprRem.drop dataDescriptorLen }) := by
  unfold csRead
  rw [if_pos (by simpa using hrem), hdd]
  simp only [if_true, hrd]

theorem csRead_f_frame (crc : List Byte → Nat) (k : Nat) (s : CSState) :
    sameEntryMeta ((csRead crc k s).2).f s.f ∧
    (s.f.hasDataDescriptor = false → ((csRead crc k s).2).f = s.f) := by
  by_cases h : s.rem.isEmpty
  · have hrem : s.rem = [] := by simpa using h
    rcases hdd : s.f.hasDataDescriptor with _ | _
    · rw [csRead_flushed_noflag crc k s hrem hdd]
      exact ⟨sameEntryMeta_refl _, fun _ => rfl⟩
    · cases hrd : readDataDescriptor s.ziprRem s.f with
      | error e =>
        rw [csRead_flushed_flag_err crc k s hrem hdd hrd]
        exact ⟨sameEntryMeta_refl _, fun hc => absurd hc (by simp)⟩
      | ok v =>
        obtain ⟨f', rest⟩ := v
        rw [csRead_flushed_flag crc k s hrem hdd hrd]
        exact ⟨readDataDescriptor_meta hrd, fun hc => absurd hc (by simp)⟩
  · have hne : s.rem ≠ [] := by simpa using h
    rw [csRead_data crc k s hne]
    exact ⟨sameEntryMeta_refl _, fun _ => rfl⟩

theorem Open_ok_file {f : File} {store : List Byte} {zs : ZipStream}
    (h : f.Open store = .ok zs) : zs.file = f := by
  unfold File.Open at h
  cases hbo : f.findBodyOffset store with
  | error e => rw [hbo] at h; simp at h
  | ok bo =>
    rw [hbo] at h
    simp only at h
    split at h
    · cases h; rfl
    · split at h
      · cases h; rfl
      · simp at h

theorem initialCS_f (zs : ZipStream) (inflate : List Byte → List Byte × List Byte) :
    (initialCS zs inflate).f = zs.file := by
  unfold initialCS
  cases zs.comp <;> rfl

/-- Claim C4 (amended): `File.Open` itself never mutates the entry, and
draining an opened stream of an entry whose trailer-follows flag is clear
leaves the entry unchanged; for a flagged entry, draining can overwrite
only the CRC-32 and the two size fields (with the data descriptor's
values) — every other field of the entry is unchanged for every entry. -/
theorem C4_open_entry_mutation (crc : List Byte → Nat)
    (inflate : List Byte → List Byte × List Byte) (f : File) (store : List Byte)
    (zs : ZipStream) (hopen : f.Open store = .ok zs) :
    zs.file = f ∧
    (f.hasDataDescriptor = false →
      (drainCS crc (initialCS zs inflate)).2.2.f = f) ∧
    sameEntryMeta ((drainCS crc (initialCS zs inflate)).2.2.f) f := by
  have hf : zs.file = f := Open_ok_file hopen
  have hs0 : (initialCS zs inflate).f = f := by rw [initialCS_f, hf]
  have hflush : (flushCS (initialCS zs inflate)).f = f := by
    unfold flushCS; exact hs0
  refine ⟨hf, fun hdd => ?_, ?_⟩
  · rw [drainCS_eq]
    have h := (csRead_f_frame crc 4096 (flushCS (initialCS zs inflate))).2
      (by rw [hflush]; exact hdd)
    rw [h, hflush]
  · rw [drainCS_eq]
    have h := (csRead_f_frame crc 4096 (flushCS (initialCS zs inflate))).1
    rw [hflush] at h
    exact h

theorem C4_witness :
    (drainCS lenCrc (initialCS ⟨.store, openView c7file c7store 30, c7file⟩
      (fun l => ([1], l.drop 3)))).2.2.f = c7file :=
  (C4_open_entry_mutation lenCrc (fun l => ([1], l.drop 3)) c7file c7store
    ⟨.store, openView c7file c7store 30, c7file⟩ (by rfl)).2.1 (by decide)

/-- A deflate entry with the trailer-follows flag, zero recorded sizes, a
3-byte compressed body and a 12-byte data descriptor recording CRC-32 5. -/
def c4store : List Byte :=
  [80, 75, 3, 4] ++
  [0, 0, 0, 0, 0, 0, 0, 0, 0, 0, 0, 0, 0, 0, 0, 0, 0, 0, 0, 0, 0, 0] ++
  [0, 0] ++ [0, 0] ++ [9, 9, 9] ++ [5, 0, 0, 0, 3, 0, 0, 0, 1, 0, 0, 0]

def c4file : File :=
  { flags := 8, method := 8, compressedSize := 0, headerOffset := 0, zipsize := 45 }

/-- A concrete instance of the black-box inflate transform that produces one
output byte and consumes the 3-byte compressed body, leaving the data
descriptor unconsumed — the behavior the deferred-trailer design relies on. -/
def c4inflate : List Byte → List Byte × List Byte := fun l => ([1], l.drop 3)

def c4stream : ZipStream := ⟨.deflate, openView c4file c4store 30, c4file⟩

theorem C4_counterexample :
    c4file.Open c4store = .ok c4stream ∧
    c4file.hasDataDescriptor = true ∧
    c4file.crc32 = 0 ∧
    (drainCS lenCrc (initialCS c4stream c4inflate)).2.2.f.crc32 = 5 := by
  refine ⟨by rfl, by decide, by rfl, ?_⟩
  rw [drainCS_eq]
  decide

/-! The directory-loop decomposition: a byte stream consisting of
well-formed record blocks followed by a failing tail is decoded into
exactly those records, stopping with the tail's error. -/

theorem directoryLoop_error {zs : Nat} {r : List Byte} {acc : List File}
    {e : ZipError} (h : readDirectoryHeader { zipsize := zs } r = .error e) :
    directoryLoop zs r acc = (acc.reverse, e) := by
  conv_lhs => rw [directoryLoop]
  split
  · rename_i e2 heq
    rw [h] at heq
    injection heq with h2
    rw [h2]
  · rename_i f2 r2 heq
    rw [h] at heq
    exact Except.noConfusion heq

theorem directoryLoop_ok {zs : Nat} {r : List Byte} {acc : List File}
    {f : File} {r' : List Byte}
    (h : readDirectoryHeader { zipsize := zs } r = .ok (f, r')) :
    directoryLoop zs r acc = directoryLoop zs r' (f :: acc) := by
  conv_lhs => rw [directoryLoop]
  split
  · rename_i e2 heq
    rw [h] at heq
    exact Except.noConfusion heq
  · rename_i f2 r2 heq
    rw [h] at heq
    injection heq with h2
    injection h2 with h3 h4
    rw [h3, h4]

/-- A byte block that decodes as exactly one central-directory record:
correct signature, and total length exactly the fixed part plus the three
declared variable lengths. -/
def IsRecord (c : List Byte) : Prop :=
  toUint32 c = directoryHeaderSignature ∧
  c.length = directoryHeaderLen +
    (toUint16 (c.drop 28) + toUint16 (c.drop 30) + toUint16 (c.drop 32))

instance (c : List Byte) : Decidable (IsRecord c) := by
  unfold IsRecord
  infer_instance

/-- The file decoded from the record block `c` (the store size goes into
`zipsize`), exactly as `readDirectoryHeader` populates it from the fixed
part `c.take directoryHeaderLen` and the variable part `c.drop
directoryHeaderLen`. -/
def parseRecord (zs : Nat) (c : List Byte) : File :=
  { zipsize := zs
    creatorVersion := toUint16 ((c.take directoryHeaderLen).drop 4)
    readerVersion := toUint16 ((c.take directoryHeaderLen).drop 6)
    flags := toUint16 ((c.take directoryHeaderLen).drop 8)
    method := toUint16 ((c.take directoryHeaderLen).drop 10)
    modifiedTime := toUint16 ((c.take directoryHeaderLen).drop 12)
    modifiedDate := toUint16 ((c.take directoryHeaderLen).drop 14)
    crc32 := toUint32 ((c.take directoryHeaderLen).drop 16)
    compressedSize := toUint32 ((c.take directoryHeaderLen).drop 20)
    uncompressedSize := toUint32 ((c.take directoryHeaderLen).drop 24)
    externalAttrs := toUint32 ((c.take directoryHeaderLen).drop 38)
    headerOffset := toUint32 ((c.take directoryHeaderLen).drop 42)
    name := (c.drop directoryHeaderLen).take
      (toUint16 ((c.take directoryHeaderLen).drop 28))
    extra := ((c.drop directoryHeaderLen).drop
      (toUint16 ((c.take directoryHeaderLen).drop 28))).take
      (toUint16 ((c.take directoryHeaderLen).drop 30))
    comment := (c.drop directoryHeaderLen).drop
      (toUint16 ((c.take directoryHeaderLen).drop 28) +
        toUint16 ((c.take directoryHeaderLen).drop 30)) }

theorem take_drop_toUint16 (c : List Byte) (k : Nat) (hk : k + 2 ≤ directoryHeaderLen) :
    toUint16 ((c.take directoryHeaderLen).drop k) = toUint16 (c.drop k) := by
  rw [List.drop_take]
  exact toUint16_take (by omega)

theorem readDirectoryHeader_record (zs : Nat) (c x : List Byte)
    (h : IsRecord c) :
    readDirectoryHeader { zipsize := zs } (c ++ x) = .ok (parseRecord zs c, x) := by
  obtain ⟨hsig, hlen⟩ := h
  have h46 : directoryHeaderLen ≤ c.length := by omega
  have hrf1 : readFull (c ++ x) directoryHeaderLen =
      .ok (c.take directoryHeaderLen, c.drop directoryHeaderLen ++ x) := by
    unfold readFull
    rw [if_pos (by simp only [List.length_append]; omega)]
    rw [List.take_append_of_le_length h46, List.drop_append_of_le_length h46]
  have hsig' : toUint32 (c.take directoryHeaderLen) = directoryHeaderSignature := by
    rw [toUint32_take (by unfold directoryHeaderLen; omega)]
    exact hsig
  have h28 := take_drop_toUint16 c 28 (by unfold directoryHeaderLen; omega)
  have h30 := take_drop_toUint16 c 30 (by unfold directoryHeaderLen; omega)
  have h32 := take_drop_toUint16 c 32 (by unfold directoryHeaderLen; omega)
  have hdlen : (c.drop directoryHeaderLen).length =
      toUint16 (c.drop 28) + toUint16 (c.drop 30) + toUint16 (c.drop 32) := by
    simp only [List.length_drop]
    omega
  have hrf2 : readFull (c.drop directoryHeaderLen ++ x)
      (toUint16 ((c.take directoryHeaderLen).drop 28) +
        toUint16 ((c.take directoryHeaderLen).drop 30) +
        toUint16 ((c.take directoryHeaderLen).drop 32)) =
      .ok (c.drop directoryHeaderLen, x) := by
    rw [h28, h30, h32]
    unfold readFull
    rw [if_pos (by simp only [List.length_append]; omega)]
    rw [← hdlen, List.take_append_of_le_length (by omega),
      List.drop_append_of_le_length (by omega)]
    rw [List.take_length, List.drop_length, List.nil_append]
  unfold readDirectoryHeader
  simp only [hrf1, hsig', ne_eq, not_true_eq_false, if_false, hrf2]
  rfl

theorem directoryLoop_decomp (zs : Nat) (chunks : List (List Byte))
    (tail : List Byte) (e : ZipError) (acc : List File)
    (htail : readDirectoryHeader { zipsize := zs } tail = .error e)
    (hchunks : ∀ c ∈ chunks, IsRecord c) :
    directoryLoop zs (chunks.foldr (· ++ ·) tail) acc =
      (acc.reverse ++ chunks.map (parseRecord zs), e) := by
  induction chunks generalizing acc with
  | nil => simpa using directoryLoop_error htail
  | cons c cs ih =>
    have hrec := readDirectoryHeader_record zs c (cs.foldr (· ++ ·) tail)
      (hchunks c (by simp))
    rw [List.foldr_cons, directoryLoop_ok hrec,
      ih (parseRecord zs c :: acc) (fun c' hc' => hchunks c' (by simp [hc']))]
    simp [List.reverse_cons, List.append_assoc]

/-- The complete characterization of `Reader.init` on a store whose
directory region decomposes into record blocks followed by a failing tail. -/
theorem init_decomp (store : List Byte) (d : directoryEnd)
    (chunks : List (List Byte)) (tail : List Byte) (e : ZipError)
    (hend : readDirectoryEnd store = .ok d)
    (hsplit : store.drop d.directoryOffset = chunks.foldr (· ++ ·) tail)
    (hchunks : ∀ c ∈ chunks, IsRecord c)
    (htail : readDirectoryHeader { zipsize := store.length } tail = .error e) :
    Reader.init store =
      if e = .errFormat ∨ e = .errUnexpectedEOF then
        (if chunks.length % 65536 = d.directoryRecords then
          .ok ⟨chunks.map (parseRecord store.length), d.comment⟩
        else .error e)
      else .error e := by
  unfold Reader.init
  rw [hend]
  simp only [hsplit, directoryLoop_decomp store.length chunks tail e [] htail hchunks,
    List.reverse_nil, List.nil_append, List.length_map]

/-! Claim C1: the count-wraparound tolerance of the directory parser. -/

/-- Claim C1 (amended): on every archive whose directory region decomposes
into well-formed record blocks followed by a tail on which the record
decoder fails: when the stopping error is the bad-signature format error or
the unexpected-end-of-input error, open succeeds with exactly the decoded
records when the decoded count reduced modulo 65536 equals the trailer's
declared count (so an archive with 65536+k true entries declaring k yields
65536+k entries with no error) and fails with the stopping error when the
reduced counts differ; when the tail instead fails with the clean
end-of-input error (`io.EOF`, a record boundary exactly at the end of
input), open fails with that error even if the reduced count matches. -/
theorem C1_count_wraparound (store : List Byte) (d : directoryEnd)
    (chunks : List (List Byte)) (tail : List Byte) (e : ZipError)
    (hend : readDirectoryEnd store = .ok d)
    (hsplit : store.drop d.directoryOffset = chunks.foldr (· ++ ·) tail)
    (hchunks : ∀ c ∈ chunks, IsRecord c)
    (htail : readDirectoryHeader { zipsize := store.length } tail = .error e) :
    ((e = .errFormat ∨ e = .errUnexpectedEOF) →
      (chunks.length % 65536 = d.directoryRecords →
        Reader.init store = .ok ⟨chunks.map (parseRecord store.length), d.comment⟩) ∧
      (chunks.length % 65536 ≠ d.directoryRecords →
        Reader.init store = .error e)) ∧
    (¬(e = .errFormat ∨ e = .errUnexpectedEOF) →
      Reader.init store = .error e) := by
  rw [init_decomp store d chunks tail e hend hsplit hchunks htail]
  constructor
  · intro hsoft
    rw [if_pos hsoft]
    constructor
    · intro hcnt; rw [if_pos hcnt]
    · intro hcnt; rw [if_neg hcnt]
  · intro hsoft
    rw [if_neg hsoft]

/-- A 22-byte store that is exactly one end-of-directory trailer declaring
zero records whose directory offset is the store size itself: the first
record read hits a clean end of input (`io.EOF`), which `Reader.init`
returns even though zero records were decoded and zero were declared. -/
def c1eof : List Byte :=
  [80, 75, 5, 6] ++ [0, 0, 0, 0, 0, 0, 0, 0] ++ [0, 0, 0, 0] ++
  [22, 0, 0, 0] ++ [0, 0]

theorem C1_counterexample :
    readDirectoryEnd c1eof = .ok (parseEnd c1eof) ∧
    (parseEnd c1eof).directoryRecords = 0 ∧
    directoryLoop c1eof.length (c1eof.drop (parseEnd c1eof).directoryOffset) []
      = ([], .errEOF) ∧
    Reader.init c1eof = .error .errEOF := by
  have hend : readDirectoryEnd c1eof = .ok (parseEnd c1eof) := by rfl
  have hdr : readDirectoryHeader { zipsize := c1eof.length } ([] : List Byte)
      = .error .errEOF := by rfl
  have hdrop : c1eof.drop (parseEnd c1eof).directoryOffset = [] := by rfl
  have hloop : directoryLoop c1eof.length
      (c1eof.drop (parseEnd c1eof).directoryOffset) [] = ([], .errEOF) := by
    rw [hdrop, directoryLoop_error hdr]
    rfl
  refine ⟨hend, by decide, hloop, ?_⟩
  unfold Reader.init
  rw [hend]
  simp only [hloop]
  rw [if_neg (by decide :
    ¬(ZipError.errEOF = ZipError.errFormat ∨ ZipError.errEOF = ZipError.errUnexpectedEOF))]

/-- `n` copies of the chunk `c` followed by the tail `t`. -/
def chainRep (n : Nat) (c t : List Byte) : List Byte :=
  (List.replicate n c).foldr (· ++ ·) t

theorem chainRep_succ (n : Nat) (c t : List Byte) :
    chainRep (n+1) c t = c ++ chainRep n c t := by
  unfold chainRep
  rw [List.replicate_succ, List.foldr_cons]

theorem chainRep_length (n : Nat) (c t : List Byte) :
    (chainRep n c t).length = n * c.length + t.length := by
  induction n with
  | zero => simp [chainRep]
  | succ n ih =>
    rw [chainRep_succ, List.length_append, ih]
    ring

theorem chainRep_drop (c t : List Byte) (j n : Nat) (h : j ≤ n) :
    (chainRep n c t).drop (j * c.length) = chainRep (n - j) c t := by
  induction j generalizing n with
  | zero => simp
  | succ j ih =>
    cases n with
    | zero => omega
    | succ n =>
      rw [chainRep_succ]
      rw [show (j+1) * c.length = c.length + j * c.length from by ring]
      rw [← List.drop_drop, List.drop_left]
      rw [Nat.succ_sub_succ]
      exact ih n (by omega)

/-- A minimal central-directory record: signature, all fixed fields zero,
no name, extra, or comment. -/
def c1rec : List Byte := [80, 75, 1, 2] ++ List.replicate 42 (0 : Byte)

/-- A trailer declaring 1 directory record at directory offset 0. -/
def c1trailer : List Byte :=
  [80, 75, 5, 6] ++ [0, 0, 0, 0, 1, 0, 1, 0] ++ [0, 0, 0, 0] ++
  [0, 0, 0, 0] ++ [0, 0]

/-- An archive with 65537 directory records whose 16-bit trailer count has
wrapped around to 1. -/
def c1big : List Byte := chainRep 65537 c1rec c1trailer

theorem c1rec_length : c1rec.length = 46 := by
  simp [c1rec]

theorem c1big_length : c1big.length = 3014724 := by
  unfold c1big
  rw [chainRep_length, c1rec_length]
  norm_num [c1trailer]

theorem c1window : scanWindow c1big 1024 = (chainRep 22 c1rec c1trailer).drop 10 := by
  unfold scanWindow
  rw [c1big_length]
  rw [show min 1024 3014724 = 1024 from by norm_num]
  rw [show (3014724 - 1024 : Nat) = 3013690 + 10 from by norm_num]
  rw [← List.drop_drop]
  unfold c1big
  rw [show (3013690 : Nat) = 65515 * c1rec.length from by rw [c1rec_length]]
  rw [chainRep_drop c1rec c1trailer 65515 65537 (by norm_num)]

theorem c1dropTrailer : ((chainRep 22 c1rec c1trailer).drop 10).drop 1002 = c1trailer := by
  rw [List.drop_drop]
  rw [show (10 + 1002 : Nat) = 22 * c1rec.length from by rw [c1rec_length]]
  rw [chainRep_drop c1rec c1trailer 22 22 (Nat.le_refl 22), Nat.sub_self]
  rfl

theorem c1w_length : ((chainRep 22 c1rec c1trailer).drop 10).length = 1024 := by
  simp only [List.length_drop, chainRep_length, c1rec_length]
  norm_num [c1trailer]

theorem endCond_of_suffix (b : List Byte) (p : Nat) (T : List Byte)
    (hsuf : b.drop p = T) (hsig : endSigAt T 0 = true)
    (hlen : commentLenAt T 0 + directoryEndLen + p = b.length) :
    endCond b p = true := by
  rw [endCond_iff]
  constructor
  · unfold endSigAt at hsig ⊢
    rw [← hsuf] at hsig
    simp only [getD_drop] at hsig
    simpa using hsig
  · have hc : commentLenAt b p = commentLenAt T 0 := by
      unfold commentLenAt
      rw [← hsuf]
      simp only [getD_drop]
      congr 2
    omega

theorem c1find : findSignatureInBlock ((chainRep 22 c1rec c1trailer).drop 10)
    = some 1002 := by
  rw [findSignatureInBlock_some]
  constructor
  · refine endCond_of_suffix _ 1002 c1trailer c1dropTrailer (by decide) ?_
    rw [c1w_length]
    decide
  · intro q hq
    have hle := endCond_le hq
    rw [c1w_length] at hle
    unfold directoryEndLen at hle
    omega

theorem readDirectoryEnd_found1 (store : List Byte) (p : Nat)
    (h : findSignatureInBlock (scanWindow store 1024) = some p) :
    readDirectoryEnd store = .ok (parseEnd ((scanWindow store 1024).drop p)) := by
  unfold readDirectoryEnd
  rw [h]

theorem readDirectoryEnd_found2 (store : List Byte) (p : Nat)
    (h1 : findSignatureInBlock (scanWindow store 1024) = none)
    (hsize : min 1024 store.length ≠ store.length)
    (h2 : findSignatureInBlock (scanWindow store (65 * 1024)) = some p) :
    readDirectoryEnd store = .ok (parseEnd ((scanWindow store (65 * 1024)).drop p)) := by
  unfold readDirectoryEnd
  rw [h1]
  show (if min 1024 store.length = store.length then Except.error ZipError.errFormat
    else match findSignatureInBlock (scanWindow store (65 * 1024)) with
      | some p => Except.ok (parseEnd ((scanWindow store (65 * 1024)).drop p))
      | none => Except.error ZipError.errFormat) = _
  rw [if_neg hsize, h2]

theorem readDirectoryEnd_none (store : List Byte)
    (h1 : findSignatureInBlock (scanWindow store 1024) = none)
    (h2 : findSignatureInBlock (scanWindow store (65 * 1024)) = none) :
    readDirectoryEnd store = .error .errFormat := by
  unfold readDirectoryEnd
  rw [h1]
  show (if min 1024 store.length = store.length then Except.error ZipError.errFormat
    else match findSignatureInBlock (scanWindow store (65 * 1024)) with
      | some p => Except.ok (parseEnd ((scanWindow store (65 * 1024)).drop p))
      | none => Except.error ZipError.errFormat) = _
  by_cases hsize : min 1024 store.length = store.length
  · rw [if_pos hsize]
  · rw [if_neg hsize, h2]

theorem c1end : readDirectoryEnd c1big = .ok (parseEnd c1trailer) := by
  have h1 : findSignatureInBlock (scanWindow c1big 1024) = some 1002 := by
    rw [c1window]
    exact c1find
  rw [readDirectoryEnd_found1 c1big 1002 h1, c1window, c1dropTrailer]

theorem c1hsplit : c1big.drop (parseEnd c1trailer).directoryOffset =
    (List.replicate 65537 c1rec).foldr (· ++ ·) c1trailer := by
  rw [show (parseEnd c1trailer).directoryOffset = 0 from by decide]
  rw [List.drop_zero]
  rfl

theorem c1chunks : ∀ c ∈ List.replicate 65537 c1rec, IsRecord c := by
  intro c hc
  rw [List.eq_of_mem_replicate hc]
  decide

theorem c1tail : readDirectoryHeader { zipsize := c1big.length } c1trailer
    = .error .errUnexpectedEOF := by
  unfold readDirectoryHeader readFull
  rw [if_neg (by decide : ¬(directoryHeaderLen ≤ c1trailer.length)),
    if_neg (by decide : ¬(c1trailer.length = 0))]

theorem C1_witness :
    Reader.init c1big = .ok ⟨(List.replicate 65537 c1rec).map (parseRecord c1big.length),
      (parseEnd c1trailer).comment⟩ :=
  ((C1_count_wraparound c1big (parseEnd c1trailer) (List.replicate 65537 c1rec)
    c1trailer .errUnexpectedEOF c1end c1hsplit c1chunks c1tail).1
    (Or.inr rfl)).1 (by rw [List.length_replicate]; decide)

/-! Claim C2: window coverage of the trailer locator. -/

theorem commentLenAt_lt (b : List Byte) (i : Nat) : commentLenAt b i < 65536 := by
  unfold commentLenAt
  have h1 : (b.getD (i + directoryEndLen - 2) 0).val < 256 := Fin.is_lt _
  have h2 : (b.getD (i + directoryEndLen - 1) 0).val < 256 := Fin.is_lt _
  have h3 : (b.getD (i + directoryEndLen - 1) 0).val <<< 8 < 65536 := by
    rw [Nat.shiftLeft_eq]
    have : (2:Nat) ^ 8 = 256 := by norm_num
    rw [this]
    omega
  have h16 : (2:Nat) ^ 16 = 65536 := by norm_num
  calc (b.getD (i + directoryEndLen - 2) 0).val |||
      ((b.getD (i + directoryEndLen - 1) 0).val <<< 8) < 2 ^ 16 :=
        Nat.or_lt_two_pow (by omega) (by omega)
    _ = 65536 := h16

theorem endCond_transfer {b1 b2 : List Byte} {p1 p2 : Nat}
    (hsuf : b1.drop p1 = b2.drop p2)
    (hp1 : p1 ≤ b1.length) (hp2 : p2 ≤ b2.length)
    (hbal : b1.length - p1 = b2.length - p2) :
    endCond b1 p1 = endCond b2 p2 := by
  have h0 : ∀ i, b1.getD (p1 + i) (0:Byte) = b2.getD (p2 + i) 0 := by
    intro i
    rw [← getD_drop, ← getD_drop, hsuf]
  have hsg : endSigAt b1 p1 = endSigAt b2 p2 := by
    unfold endSigAt
    have e0 := h0 0
    have e1 := h0 1
    have e2 := h0 2
    have e3 := h0 3
    simp only [Nat.add_zero] at e0
    rw [e0, e1, e2, e3]
  have hcl : commentLenAt b1 p1 = commentLenAt b2 p2 := by
    unfold commentLenAt
    have e20 := h0 20
    have e21 := h0 21
    rw [show p1 + directoryEndLen - 2 = p1 + 20 from by unfold directoryEndLen; omega,
      show p1 + directoryEndLen - 1 = p1 + 21 from by unfold directoryEndLen; omega,
      show p2 + directoryEndLen - 2 = p2 + 20 from by unfold directoryEndLen; omega,
      show p2 + directoryEndLen - 1 = p2 + 21 from by unfold directoryEndLen; omega,
      e20, e21]
  unfold endCond
  rw [hsg, hcl]
  have hb : (commentLenAt b2 p2 + directoryEndLen + p1 == b1.length) =
      (commentLenAt b2 p2 + directoryEndLen + p2 == b2.length) := by
    rw [Bool.eq_iff_iff]
    simp only [beq_iff_eq]
    omega
  rw [hb]

/-- When the tail `W` of the store holds a consistent trailer at its head
and no spurious consistent candidate later, a backward scan over any window
of at least `W.length` bytes finds exactly the true trailer. -/
theorem window_found (P W : List Byte) (k : Nat)
    (hsig : endSigAt W 0 = true)
    (hlen0 : commentLenAt W 0 + directoryEndLen = W.length)
    (hspur : ∀ j, 0 < j → j < W.length → endCond W j = false)
    (hk : W.length ≤ k) :
    findSignatureInBlock (scanWindow (P ++ W) k) =
      some (min k (P ++ W).length - W.length) ∧
    (scanWindow (P ++ W) k).drop (min k (P ++ W).length - W.length) = W := by
  have hsz : (P ++ W).length = P.length + W.length := List.length_append P W
  have hLb : W.length ≤ min k (P ++ W).length := by omega
  have hwlen : (scanWindow (P ++ W) k).length = min k (P ++ W).length := by
    unfold scanWindow
    simp only [List.length_drop]
    omega
  have hsuffix : (scanWindow (P ++ W) k).drop (min k (P ++ W).length - W.length) = W := by
    show ((P ++ W).drop ((P ++ W).length - min k (P ++ W).length)).drop
      (min k (P ++ W).length - W.length) = W
    rw [List.drop_drop]
    rw [show (P ++ W).length - min k (P ++ W).length +
      (min k (P ++ W).length - W.length) = P.length from by omega]
    exact List.drop_left P W
  refine ⟨?_, hsuffix⟩
  rw [findSignatureInBlock_some]
  constructor
  · refine endCond_of_suffix _ _ W hsuffix hsig ?_
    rw [hwlen]
    omega
  · intro q hq
    by_contra hgt
    push_neg at hgt
    have hle := endCond_le hq
    rw [hwlen] at hle
    have hd22 : (0:Nat) < directoryEndLen := by decide
    have hsuf : (scanWindow (P ++ W) k).drop q =
        W.drop (q - (min k (P ++ W).length - W.length)) := by
      have hgen : ∀ j : Nat, j = q - (min k (P ++ W).length - W.length) →
          (scanWindow (P ++ W) k).drop q = W.drop j := by
        intro j hj
        show ((P ++ W).drop ((P ++ W).length - min k (P ++ W).length)).drop q = _
        rw [List.drop_drop]
        conv_rhs => rw [← List.drop_left P W]
        rw [List.drop_drop]
        congr 1
        omega
      exact hgen _ rfl
    have htr := endCond_transfer hsuf (by omega) (by omega) (by rw [hwlen]; omega)
    rw [htr] at hq
    have h0 : 0 < q - (min k (P ++ W).length - W.length) := by omega
    have hlt : q - (min k (P ++ W).length - W.length) < W.length := by omega
    rw [hspur _ h0 hlt] at hq
    exact Bool.noConfusion hq

/-- When the scanned window is strictly shorter than the consistent tail
`W` (so the true trailer head lies outside it) and `W` has no spurious
consistent candidate after its head, the scan finds nothing. -/
theorem window_none (P W : List Byte) (k : Nat)
    (hspur : ∀ j, 0 < j → j < W.length → endCond W j = false)
    (hk : k < W.length) :
    findSignatureInBlock (scanWindow (P ++ W) k) = none := by
  have hsz : (P ++ W).length = P.length + W.length := List.length_append P W
  have hbLen : min k (P ++ W).length = k := by omega
  have hwlen : (scanWindow (P ++ W) k).length = k := by
    unfold scanWindow
    simp only [List.length_drop]
    omega
  rw [findSignatureInBlock_none]
  intro q
  by_contra hct
  have hq : endCond (scanWindow (P ++ W) k) q = true := by
    revert hct
    cases endCond (scanWindow (P ++ W) k) q <;> simp
  have hle := endCond_le hq
  rw [hwlen] at hle
  have hd22 : (0:Nat) < directoryEndLen := by decide
  have hsuf : (scanWindow (P ++ W) k).drop q = W.drop (W.length - k + q) := by
    have hgen : ∀ j : Nat, j = W.length - k + q →
        (scanWindow (P ++ W) k).drop q = W.drop j := by
      intro j hj
      show ((P ++ W).drop ((P ++ W).length - min k (P ++ W).length)).drop q = _
      rw [List.drop_drop]
      conv_rhs => rw [← List.drop_left P W]
      rw [List.drop_drop]
      congr 1
      omega
    exact hgen _ rfl
  have htr := endCond_transfer hsuf (by omega) (by omega) (by rw [hwlen]; omega)
  rw [htr] at hq
  rw [hspur _ (by omega) (by omega)] at hq
  exact Bool.noConfusion hq

/-- The locator on a store `P ++ (T ++ C)` whose tail is a consistent,
spurious-free trailer-plus-comment returns the true trailer record. -/
theorem trailer_locate (P T C : List Byte)
    (hT : T.length = directoryEndLen)
    (hsig : endSigAt (T ++ C) 0 = true)
    (hn : commentLenAt (T ++ C) 0 = C.length)
    (hspur : ∀ j, 0 < j → j < (T ++ C).length → endCond (T ++ C) j = false) :
    readDirectoryEnd (P ++ (T ++ C)) = .ok (parseEnd (T ++ C)) := by
  have hW : (T ++ C).length = directoryEndLen + C.length := by
    rw [List.length_append, hT]
  have hlen0 : commentLenAt (T ++ C) 0 + directoryEndLen = (T ++ C).length := by
    rw [hn]; omega
  have hC : C.length < 65536 := by rw [← hn]; exact commentLenAt_lt _ 0
  have hd22 : directoryEndLen = 22 := rfl
  by_cases hsmall : (T ++ C).length ≤ 1024
  · obtain ⟨hfind, hsuf⟩ := window_found P (T ++ C) 1024 hsig hlen0 hspur hsmall
    rw [readDirectoryEnd_found1 _ _ hfind, hsuf]
  · have hnone := window_none P (T ++ C) 1024 hspur (by omega)
    have hk2 : (T ++ C).length ≤ 65 * 1024 := by omega
    obtain ⟨hfind, hsuf⟩ := window_found P (T ++ C) (65 * 1024) hsig hlen0 hspur hk2
    have hsz : (P ++ (T ++ C)).length = P.length + (T ++ C).length :=
      List.length_append _ _
    rw [readDirectoryEnd_found2 _ _ hnone (by omega) hfind, hsuf]

theorem parseEnd_comment_eq (T C : List Byte)
    (hT : T.length = directoryEndLen)
    (hn : commentLenAt (T ++ C) 0 = C.length) :
    (parseEnd (T ++ C)).comment = C := by
  unfold parseEnd
  have h20 : toUint16 ((T ++ C).drop 20) = commentLenAt (T ++ C) 0 := by
    unfold toUint16 commentLenAt
    simp only [getD_drop]
    congr 2
  rw [h20, hn]
  rw [show (22:Nat) = T.length from by rw [hT]; rfl]
  rw [List.drop_left]
  exact List.take_length C

/-- Claim C2 (amended): the locator scans the last 1 KiB and then the last
65 KiB (65*1024 bytes, enough for the maximum 65535-byte comment since the
comment-length field is 16-bit).  For every store `base ++ trailer ++
comment` whose trailer's comment-length field matches the appended comment
(of any length up to 65535) and whose trailer-and-comment bytes contain no
spurious consistent candidate after the true trailer, the true trailer is
located, and — given a well-formed directory — open succeeds and returns
the appended comment; if both windows contain no consistent match, open
fails with the format error.  (A comment containing its own consistent
trailer candidate would instead make the backward scan select the later,
spurious match.) -/
theorem C2_trailer_window_coverage :
    (∀ P T C : List Byte,
      T.length = directoryEndLen →
      endSigAt (T ++ C) 0 = true →
      commentLenAt (T ++ C) 0 = C.length →
      (∀ j, j < (T ++ C).length → 0 < j → endCond (T ++ C) j = false) →
      readDirectoryEnd (P ++ (T ++ C)) = .ok (parseEnd (T ++ C)) ∧
      (parseEnd (T ++ C)).comment = C) ∧
    (∀ (P T C : List Byte) (chunks : List (List Byte)) (tail : List Byte)
      (e : ZipError),
      T.length = directoryEndLen →
      endSigAt (T ++ C) 0 = true →
      commentLenAt (T ++ C) 0 = C.length →
      (∀ j, j < (T ++ C).length → 0 < j → endCond (T ++ C) j = false) →
      (P ++ (T ++ C)).drop (parseEnd (T ++ C)).directoryOffset =
        chunks.foldr (· ++ ·) tail →
      (∀ c ∈ chunks, IsRecord c) →
      readDirectoryHeader { zipsize := (P ++ (T ++ C)).length } tail = .error e →
      (e = .errFormat ∨ e = .errUnexpectedEOF) →
      chunks.length % 65536 = (parseEnd (T ++ C)).directoryRecords →
      Reader.init (P ++ (T ++ C)) =
        .ok ⟨chunks.map (parseRecord (P ++ (T ++ C)).length), C⟩) ∧
    (∀ store : List Byte,
      findSignatureInBlock (scanWindow store 1024) = none →
      findSignatureInBlock (scanWindow store (65 * 1024)) = none →
      Reader.init store = .error .errFormat) := by
  refine ⟨fun P T C hT hsig hn hspur => ?_, fun P T C chunks tail e hT hsig hn hspur hsplit hchunks htail hsoft hcnt => ?_, fun store h1 h2 => ?_⟩
  · exact ⟨trailer_locate P T C hT hsig hn (fun j hj1 hj2 => hspur j hj2 hj1),
      parseEnd_comment_eq T C hT hn⟩
  · have hloc := trailer_locate P T C hT hsig hn (fun j hj1 hj2 => hspur j hj2 hj1)
    rw [init_decomp (P ++ (T ++ C)) (parseEnd (T ++ C)) chunks tail e hloc hsplit
      hchunks htail, if_pos hsoft, if_pos hcnt, parseEnd_comment_eq T C hT hn]
  · unfold Reader.init
    rw [readDirectoryEnd_none store h1 h2]

/-- A well-formed minimal archive: a bare trailer declaring zero records at
directory offset 0 with no comment.  Open succeeds with zero entries. -/
def c2base : List Byte :=
  [80, 75, 5, 6] ++ [0, 0, 0, 0, 0, 0, 0, 0] ++ [0, 0, 0, 0] ++
  [0, 0, 0, 0] ++ [0, 0]

/-- The same archive with a 22-byte comment appended and the comment-length
field updated to 22; the comment bytes themselves form a consistent
end-of-directory candidate declaring 7 records, which the backward scan
selects instead of the true trailer. -/
def c2bad : List Byte :=
  [80, 75, 5, 6] ++ [0, 0, 0, 0, 0, 0, 0, 0] ++ [0, 0, 0, 0] ++
  [0, 0, 0, 0] ++ [22, 0] ++
  ([80, 75, 5, 6] ++ [0, 0, 0, 0, 0, 0, 7, 0] ++ [0, 0, 0, 0] ++
  [0, 0, 0, 0] ++ [0, 0])

theorem C2_counterexample :
    Reader.init c2base = .ok ⟨[], []⟩ ∧
    toUint16 (c2bad.drop 20) = 22 ∧
    c2bad.length = 22 + 22 ∧
    c2bad.take 20 = c2base.take 20 ∧
    Reader.init c2bad = .error .errUnexpectedEOF := by
  have hend1 : readDirectoryEnd c2base = .ok (parseEnd c2base) := by rfl
  have hdr1 : readDirectoryHeader { zipsize := c2base.length } c2base
      = .error .errUnexpectedEOF := by rfl
  have hloop1 : directoryLoop c2base.length
      (c2base.drop (parseEnd c2base).directoryOffset) [] =
      ([], .errUnexpectedEOF) := by
    rw [show (parseEnd c2base).directoryOffset = 0 from by decide,
      List.drop_zero, directoryLoop_error hdr1]
    rfl
  have hinit1 : Reader.init c2base = .ok ⟨[], []⟩ := by
    unfold Reader.init
    rw [hend1]
    simp only [hloop1]
    rw [if_pos (Or.inr trivial), if_pos (by decide)]
    rfl
  have hend2 : readDirectoryEnd c2bad = .ok (parseEnd (c2bad.drop 22)) := by rfl
  have hdr2 : readDirectoryHeader { zipsize := c2bad.length } c2bad
      = .error .errUnexpectedEOF := by rfl
  have hloop2 : directoryLoop c2bad.length
      (c2bad.drop (parseEnd (c2bad.drop 22)).directoryOffset) [] =
      ([], .errUnexpectedEOF) := by
    rw [show (parseEnd (c2bad.drop 22)).directoryOffset = 0 from by decide,
      List.drop_zero, directoryLoop_error hdr2]
    rfl
  have hinit2 : Reader.init c2bad = .error .errUnexpectedEOF := by
    unfold Reader.init
    rw [hend2]
    simp only [hloop2]
    rw [if_pos (Or.inr trivial), if_neg (by decide)]
  exact ⟨hinit1, by decide, by decide, by decide, hinit2⟩

/-- A trailer declaring zero records at offset 0 with comment length 2. -/
def c2wT : List Byte :=
  [80, 75, 5, 6] ++ [0, 0, 0, 0, 0, 0, 0, 0] ++ [0, 0, 0, 0] ++
  [0, 0, 0, 0] ++ [2, 0]

def c2wC : List Byte := [1, 1]

theorem C2_witness :
    Reader.init ([] ++ (c2wT ++ c2wC)) = .ok ⟨[], c2wC⟩ ∧
    Reader.init [0, 0, 0] = .error .errFormat := by
  constructor
  · refine C2_trailer_window_coverage.2.1 [] c2wT c2wC [] (c2wT ++ c2wC)
      .errUnexpectedEOF (by decide) (by decide) (by decide) (by decide) ?_ ?_ ?_
      (Or.inr rfl) (by decide)
    · rw [show (parseEnd (c2wT ++ c2wC)).directoryOffset = 0 from by decide]
      rfl
    · intro c hc
      simp at hc
    · rfl
  · exact C2_trailer_window_coverage.2.2 [0, 0, 0] (by decide) (by decide)

def c6good : CSState := ⟨[7, 7], [], { crc32 := 2 }, []⟩

def c6bad : CSState := ⟨[7, 7], [], { crc32 := 5 }, []⟩

theorem C6_witness :
    ((drainCS lenCrc c6good).1 = [7, 7] ∧ (drainCS lenCrc c6good).2.1 = ZipError.errEOF) ∧
    ((drainCS lenCrc c6bad).1 = [7, 7] ∧ (drainCS lenCrc c6bad).2.1 = ZipError.errChecksum) := by
  constructor
  · have h := (C6_lazy_checksum lenCrc).2.1 c6good (by decide)
    refine ⟨h.1, ?_⟩
    rw [h.2]
    decide
  · have h := (C6_lazy_checksum lenCrc).2.1 c6bad (by decide)
    refine ⟨h.1, ?_⟩
    rw [h.2]
    decide

end Zip
